import Mathlib

/-!
Verification of the proxy rotation engine (`python_rotation.py`).

The data model and operations below are a shallow embedding of the Python
source: `Proxy` mirrors the `Proxy` dataclass (numeric fields are modelled
as rationals, timestamps are passed in explicitly instead of reading the
clock), `ProxyRotator` mirrors the `ProxyRotator` class, and each operation
is translated statement by statement.  Network behaviour of the probe is
modelled by an explicit `ProbeBehavior` oracle describing what the two
`requests.get` calls inside `_test_proxy` do.  The randomness used by
`get_next_proxy` (jitter draws and the weighted choice) is passed in as
oracle arguments; the probabilistic content of the latency-weighted
selection strategy is developed separately over the reals in the
`Selection` namespace.
-/

/-- Mirrors the `ProxyType` enum. -/
inductive ProxyType where
  | HTTP
  | SOCKS4
  | SOCKS5
  | TOR
  | RESIDENTIAL
deriving DecidableEq, Repr

/-- Mirrors the `Proxy` dataclass: identity fields plus mutable runtime
statistics.  Python floats are modelled as rationals. -/
structure Proxy where
  host : String
  port : Nat
  username : Option String := none
  password : Option String := none
  proxy_type : ProxyType := ProxyType.HTTP
  country : Option String := none
  last_used : ℚ := 0
  response_time : Option ℚ := none
  success_rate : ℚ := 0
  failed_attempts : Nat := 0
deriving DecidableEq, Repr

/-- Mirrors `Proxy.update_stats`.  `now` stands for the value of
`time.time()` at the moment of the call. -/
def Proxy.update_stats (p : Proxy) (success : Bool) (response_time : Option ℚ)
    (now : ℚ) : Proxy :=
  let p1 : Proxy := { p with last_used := now }
  let p2 : Proxy :=
    match response_time with
    | none => p1
    | some rt =>
      match p1.response_time with
      | none => { p1 with response_time := some rt }
      | some old => { p1 with response_time := some (0.7 * old + 0.3 * rt) }
  if success then
    { p2 with success_rate := 0.7 * p2.success_rate + 0.3 * 1.0, failed_attempts := 0 }
  else
    { p2 with success_rate := 0.7 * p2.success_rate + 0.3 * 0.0,
              failed_attempts := p2.failed_attempts + 1 }

/-- Mirrors `Proxy.is_reliable`. -/
def Proxy.is_reliable (p : Proxy) : Bool :=
  (decide (p.success_rate ≥ 0.7) || decide (p.success_rate = 0.0)) &&
    decide (p.failed_attempts < 3)

/-- Outcome of the direct `requests.get("http://127.0.0.1:9050", timeout=2)`
pre-check performed for TOR proxies inside `_test_proxy`. -/
inductive TorDirectResult where
  | success
  | connectionError
  | otherError
deriving DecidableEq, Repr

/-- What happens inside the inner `try` block that inspects the JSON body of
a probe response: either some exception is raised while parsing or testing
membership, or the membership test `"origin" in json or "ip" in json`
evaluates to the recorded boolean. -/
inductive BodyResult where
  | raises
  | evaluates (hasOriginOrIp : Bool)
deriving DecidableEq, Repr

/-- Outcome of the main `requests.get(self.test_url, ...)` call inside
`_test_proxy`: one of the three caught exception classes, or a response
with a status code and a body. -/
inductive RequestResult where
  | timeout
  | connectionError
  | otherError
  | response (status : Nat) (body : BodyResult)
deriving DecidableEq, Repr

/-- Oracle describing the network behaviour observed during one call of
`_test_proxy`: the TOR pre-check outcome (consulted only for TOR proxies),
the main request outcome, and the elapsed time measured on success. -/
structure ProbeBehavior where
  torDirect : TorDirectResult := TorDirectResult.connectionError
  mainRequest : RequestResult
  elapsed : ℚ := 0
deriving DecidableEq, Repr

/-- Mirrors `ProxyRotator`'s constructor state: the proxy list and the
configuration fields. -/
structure ProxyRotator where
  proxies : List Proxy
  test_url : String := "https://httpbin.org/ip"
  test_timeout : Nat := 10
  min_proxies : Nat := 1
deriving DecidableEq, Repr

/-- Mirrors the body of `ProxyRotator._test_proxy` after the two
`requests.get` calls are replaced by the `ProbeBehavior` oracle.  Returns
`(success, response_time)`. -/
def ProxyRotator.test_proxy (proxy : Proxy) (b : ProbeBehavior) :
    Bool × Option ℚ :=
  if proxy.proxy_type = ProxyType.TOR ∧ b.torDirect ≠ TorDirectResult.connectionError then
    (false, none)
  else
    match b.mainRequest with
    | RequestResult.timeout => (false, none)
    | RequestResult.connectionError => (false, none)
    | RequestResult.otherError => (false, none)
    | RequestResult.response status body =>
      if status = 200 then
        match body with
        | BodyResult.raises => (true, some b.elapsed)
        | BodyResult.evaluates hasOriginOrIp =>
          if hasOriginOrIp then (true, some b.elapsed) else (false, none)
      else (false, none)

/-- Stable ascending sort by `last_used`, mirroring
`self.proxies.sort(key=lambda p: p.last_used)` (Python's sort is stable;
so is `List.mergeSort`). -/
def sortByLastUsed (l : List Proxy) : List Proxy :=
  l.mergeSort (fun a b => decide (a.last_used ≤ b.last_used))

/-- Stable descending sort by `success_rate`, mirroring
`candidates.sort(key=lambda p: p.success_rate, reverse=True)`. -/
def sortBySuccessRateDesc (l : List Proxy) : List Proxy :=
  l.mergeSort (fun a b => decide (b.success_rate ≤ a.success_rate))

/-- Mirrors `max(p.response_time for p in reliable_proxies)`; `0` is never
used because the branch that consults it requires every proxy to carry a
latency estimate and the list to be non-empty. -/
def maxResponseTime (l : List Proxy) : ℚ :=
  (l.filterMap (fun p => p.response_time)).foldl max 0

/-- Mirrors `ProxyRotator.get_next_proxy`.  The two random draws of the
source are supplied by oracles: `jitter k` stands for the `k`-th
`random.uniform(0, 0.2)` draw, and `choose ws` stands for the index drawn
by `random.choices(..., weights=ws, k=1)` (reduced modulo the number of
candidates so that the embedding is total).  Returns the selected proxy
together with the rotator state after the call (the source sorts
`self.proxies` in place in the no-reliable-proxy branch). -/
def ProxyRotator.get_next_proxy (r : ProxyRotator) (jitter : Nat → ℚ)
    (choose : List ℚ → Nat) : Option Proxy × ProxyRotator :=
  if r.proxies = [] then (none, r)
  else
    let reliable_proxies := r.proxies.filter (fun p => p.is_reliable)
    if reliable_proxies = [] then
      let sorted := sortByLastUsed r.proxies
      (sorted.head?, { r with proxies := sorted })
    else if reliable_proxies.all (fun p => p.response_time.isSome) then
      let max_time := maxResponseTime reliable_proxies + 0.01
      let weights := reliable_proxies.map
        (fun p => (max_time - p.response_time.getD 0) / max_time)
      let weights := weights.enum.map (fun wi => wi.2 + jitter wi.1)
      let total := weights.sum
      let weights := weights.map (fun w => w / total)
      let k := choose weights % reliable_proxies.length
      (reliable_proxies.get? k, r)
    else
      let candidates := sortByLastUsed reliable_proxies
      let candidates := candidates.take (min 3 candidates.length)
      let candidates := sortBySuccessRateDesc candidates
      (candidates.head?, r)

/-- Mirrors `ProxyRotator.report_proxy_result`. -/
def ProxyRotator.report_proxy_result (r : ProxyRotator) (proxy : Proxy)
    (success : Bool) (response_time : Option ℚ) (now : ℚ) : ProxyRotator :=
  if proxy ∈ r.proxies then
    { r with proxies := r.proxies.map fun q =>
        if q = proxy then q.update_stats success response_time now else q }
  else r

/-- Mirrors `ProxyRotator.add_proxy`.  Membership is decided by full
structural equality, exactly like Python's `proxy in self.proxies`, which
uses the dataclass-generated `__eq__` comparing every field.  `b` is the
probe behaviour consulted when `validate` is set and `now` the clock value
used by the `update_stats` call. -/
def ProxyRotator.add_proxy (r : ProxyRotator) (proxy : Proxy) (validate : Bool)
    (b : ProbeBehavior) (now : ℚ) : Bool × ProxyRotator :=
  if proxy ∈ r.proxies then (false, r)
  else if validate then
    let res := ProxyRotator.test_proxy proxy b
    let proxy := proxy.update_stats res.1 res.2 now
    if res.1 = false then (false, r)
    else (true, { r with proxies := r.proxies ++ [proxy] })
  else (true, { r with proxies := r.proxies ++ [proxy] })

/-- Mirrors `ProxyRotator.remove_proxy`. -/
def ProxyRotator.remove_proxy (r : ProxyRotator) (proxy : Proxy) :
    Bool × ProxyRotator :=
  if proxy ∈ r.proxies then (true, { r with proxies := r.proxies.erase proxy })
  else (false, r)

/-- Stable descending sort by the key `(success_rate, -last_used)`,
mirroring `country_proxies.sort(key=lambda p: (p.success_rate, -p.last_used),
reverse=True)`. -/
def sortByCountryKeyDesc (l : List Proxy) : List Proxy :=
  l.mergeSort (fun a b =>
    decide (b.success_rate < a.success_rate ∨
      (b.success_rate = a.success_rate ∧ -b.last_used ≤ -a.last_used)))

/-- Mirrors `ProxyRotator.get_proxy_by_country`: the query is upper-cased
(`country_code.upper()`) and compared for equality with the stored code. -/
def ProxyRotator.get_proxy_by_country (r : ProxyRotator) (country_code : String) :
    Option Proxy :=
  let country_proxies := r.proxies.filter
    (fun p => decide (p.country = some country_code.toUpper) && p.is_reliable)
  if country_proxies = [] then none
  else (sortByCountryKeyDesc country_proxies).head?

/-- Increment the count stored for `c` in an association list, mirroring
`countries[proxy.country] = countries.get(proxy.country, 0) + 1` on a dict
with insertion order. -/
def bumpCountry : List (String × Nat) → String → List (String × Nat)
  | [], c => [(c, 1)]
  | (k, n) :: rest, c =>
    if k = c then (k, n + 1) :: rest else (k, n) :: bumpCountry rest c

/-- Mirrors `ProxyRotator._get_country_distribution`. -/
def ProxyRotator.get_country_distribution (r : ProxyRotator) :
    List (String × Nat) :=
  r.proxies.foldl
    (fun acc p => match p.country with
      | none => acc
      | some c => bumpCountry acc c) []

/-- Result record of `ProxyRotator.get_stats`. -/
structure PoolStats where
  total : Nat
  reliable : Nat
  unreliable : Nat
  avg_response_time : ℚ
  avg_success_rate : ℚ
  country_distribution : List (String × Nat)
deriving DecidableEq, Repr

/-- Mirrors `ProxyRotator.get_stats`. -/
def ProxyRotator.get_stats (r : ProxyRotator) : PoolStats :=
  let reliable_count := (r.proxies.filter (fun p => p.is_reliable)).length
  let response_times := r.proxies.filterMap (fun p => p.response_time)
  let avg_response_time : ℚ :=
    if response_times = [] then 0 else response_times.sum / response_times.length
  { total := r.proxies.length
    reliable := reliable_count
    unreliable := r.proxies.length - reliable_count
    avg_response_time := avg_response_time
    avg_success_rate :=
      if r.proxies = [] then 0
      else (r.proxies.map (fun p => p.success_rate)).sum / r.proxies.length
    country_distribution := r.get_country_distribution }

namespace Selection

/-!
Real-valued model of the latency-weighted random selection branch of
`get_next_proxy` (strategy 1).  The branch is reached with a non-empty
list of reliable candidates, indexed here by `Fin (n + 1)`, each carrying
a latency estimate `l k`.  The code computes
`max_time = max(latencies) + 0.01`, the weight
`(max_time - l k) / max_time`, adds an independent `random.uniform(0, 0.2)`
jitter to each weight, divides each weight by their total, and hands the
resulting list to `random.choices`, which draws index `k` with probability
proportional to its entry.  `selProb` is the overall probability that
index `k` is drawn, i.e. the expectation over the jitter vector of the
conditional draw probability.
-/

open MeasureTheory

/-- Mirrors `max_time = max(p.response_time for p in reliable_proxies) + 0.01`. -/
noncomputable def maxTime {n : ℕ} (l : Fin (n + 1) → ℝ) : ℝ :=
  Finset.univ.sup' Finset.univ_nonempty l + 0.01

/-- Mirrors `weights = [(max_time - p.response_time) / max_time for p in ...]`. -/
noncomputable def weight {n : ℕ} (l : Fin (n + 1) → ℝ) (k : Fin (n + 1)) : ℝ :=
  (maxTime l - l k) / maxTime l

/-- Mirrors `weights = [w + random.uniform(0, 0.2) for w in weights]` with the
jitter vector `u` made explicit. -/
noncomputable def jitteredWeight {n : ℕ} (l : Fin (n + 1) → ℝ) (u : Fin (n + 1) → ℝ)
    (k : Fin (n + 1)) : ℝ :=
  weight l k + u k

/-- Mirrors `weights = [w / total for w in weights]`. -/
noncomputable def normWeight {n : ℕ} (l u : Fin (n + 1) → ℝ) (k : Fin (n + 1)) : ℝ :=
  jitteredWeight l u k / ∑ m, jitteredWeight l u m

/-- Probability that `random.choices(..., weights=weights, k=1)` draws index
`k`, given the jitter vector `u`: proportional to the handed-in weight. -/
noncomputable def drawProb {n : ℕ} (l u : Fin (n + 1) → ℝ) (k : Fin (n + 1)) : ℝ :=
  normWeight l u k / ∑ m, normWeight l u m

/-- Uniform probability measure on the jitter interval `[0, 0.2]`. -/
noncomputable def unif : Measure ℝ :=
  (5 : ENNReal) • MeasureTheory.volume.restrict (Set.Icc (0 : ℝ) 0.2)

/-- The jitter interval carries total mass one. -/
theorem unif_Icc : unif (Set.Icc (0 : ℝ) 0.2) = 1 := by
  rw [unif, Measure.smul_apply, Measure.restrict_apply measurableSet_Icc,
    Set.inter_self, Real.volume_Icc, smul_eq_mul]
  rw [show (5 : ENNReal) = ENNReal.ofReal 5 by norm_num]
  rw [← ENNReal.ofReal_mul (by norm_num)]
  norm_num

instance : IsProbabilityMeasure unif := by
  constructor
  rw [unif, Measure.smul_apply, Measure.restrict_apply_univ, Real.volume_Icc,
    smul_eq_mul]
  rw [show (5 : ENNReal) = ENNReal.ofReal 5 by norm_num]
  rw [← ENNReal.ofReal_mul (by norm_num)]
  norm_num

/-- Joint distribution of the `n + 1` independent jitter draws. -/
noncomputable def jitterMeasure (n : ℕ) : Measure (Fin (n + 1) → ℝ) :=
  Measure.pi fun _ => unif

instance (n : ℕ) : IsProbabilityMeasure (jitterMeasure n) :=
  Measure.pi.instIsProbabilityMeasure _

/-- Overall probability that candidate `k` is selected by strategy 1:
expectation of the conditional draw probability over the jitter vector. -/
noncomputable def selProb {n : ℕ} (l : Fin (n + 1) → ℝ) (k : Fin (n + 1)) : ℝ :=
  ∫ u, drawProb l u k ∂(jitterMeasure n)

/-- The support of the jitter vector: every coordinate lies in `[0, 0.2]`. -/
def box (n : ℕ) : Set (Fin (n + 1) → ℝ) :=
  Set.pi Set.univ fun _ => Set.Icc (0 : ℝ) 0.2

end Selection

namespace Selection

open MeasureTheory

theorem le_maxTime {n : ℕ} (l : Fin (n + 1) → ℝ) (_hl : ∀ k, 0 ≤ l k)
    (k : Fin (n + 1)) : l k + 0.01 ≤ maxTime l := by
  have h := Finset.le_sup' l (Finset.mem_univ k)
  unfold maxTime
  linarith

theorem maxTime_pos {n : ℕ} (l : Fin (n + 1) → ℝ) (hl : ∀ k, 0 ≤ l k) :
    0 < maxTime l := by
  have h := le_maxTime l hl 0
  have h0 := hl 0
  linarith

theorem weight_pos {n : ℕ} (l : Fin (n + 1) → ℝ) (hl : ∀ k, 0 ≤ l k)
    (k : Fin (n + 1)) : 0 < weight l k := by
  have hM := maxTime_pos l hl
  have hk := le_maxTime l hl k
  exact div_pos (by linarith) hM

theorem weight_lt_weight {n : ℕ} (l : Fin (n + 1) → ℝ) (hl : ∀ k, 0 ≤ l k)
    {i j : Fin (n + 1)} (hij : l i < l j) : weight l j < weight l i := by
  have hM := maxTime_pos l hl
  unfold weight
  gcongr

theorem sum_jitteredWeight {n : ℕ} (l u : Fin (n + 1) → ℝ) :
    ∑ m, jitteredWeight l u m = (∑ m, weight l m) + ∑ m, u m := by
  unfold jitteredWeight
  rw [Finset.sum_add_distrib]

theorem sum_weight_pos {n : ℕ} (l : Fin (n + 1) → ℝ) (hl : ∀ k, 0 ≤ l k) :
    0 < ∑ m, weight l m :=
  Finset.sum_pos (fun k _ => weight_pos l hl k) Finset.univ_nonempty

theorem mem_box_iff {n : ℕ} (u : Fin (n + 1) → ℝ) :
    u ∈ box n ↔ ∀ k, 0 ≤ u k ∧ u k ≤ 0.2 := by
  unfold box
  simp only [Set.mem_univ_pi, Set.mem_Icc]

theorem sum_jitteredWeight_pos {n : ℕ} (l u : Fin (n + 1) → ℝ)
    (hl : ∀ k, 0 ≤ l k) (hu : u ∈ box n) : 0 < ∑ m, jitteredWeight l u m := by
  apply Finset.sum_pos (fun k _ => ?_) Finset.univ_nonempty
  have hw := weight_pos l hl k
  have huk := ((mem_box_iff u).mp hu k).1
  unfold jitteredWeight
  linarith

theorem sum_jitteredWeight_le {n : ℕ} (l u : Fin (n + 1) → ℝ) (hu : u ∈ box n) :
    ∑ m, jitteredWeight l u m ≤ (∑ m, weight l m) + (n + 1) * 0.2 := by
  rw [sum_jitteredWeight]
  have : ∑ m, u m ≤ (n + 1) * 0.2 := by
    calc ∑ m, u m ≤ ∑ _m : Fin (n + 1), (0.2 : ℝ) :=
          Finset.sum_le_sum fun k _ => ((mem_box_iff u).mp hu k).2
      _ = (n + 1) * 0.2 := by simp [Finset.sum_const, Finset.card_univ]
  linarith

theorem drawProb_eq_of_mem_box {n : ℕ} (l u : Fin (n + 1) → ℝ)
    (hl : ∀ k, 0 ≤ l k) (hu : u ∈ box n) (k : Fin (n + 1)) :
    drawProb l u k = jitteredWeight l u k / ∑ m, jitteredWeight l u m := by
  have hS := sum_jitteredWeight_pos l u hl hu
  unfold drawProb normWeight
  rw [← Finset.sum_div, div_self (ne_of_gt hS), div_one]

end Selection

namespace Selection

open MeasureTheory

/-- Exchange the jitter draws of candidates `i` and `j`. -/
def swapFun {n : ℕ} (i j : Fin (n + 1)) (u : Fin (n + 1) → ℝ) :
    Fin (n + 1) → ℝ :=
  fun k => u (Equiv.swap i j k)

theorem swapFun_invol {n : ℕ} (i j : Fin (n + 1)) (u : Fin (n + 1) → ℝ) :
    swapFun i j (swapFun i j u) = u := by
  funext k
  simp [swapFun, Equiv.swap_apply_self]

theorem measurable_swapFun {n : ℕ} (i j : Fin (n + 1)) :
    Measurable fun u : Fin (n + 1) → ℝ => swapFun i j u :=
  measurable_pi_lambda _ fun _k => measurable_pi_apply _

/-- Exchanging two jitter coordinates as a measurable equivalence. -/
def swapEquiv {n : ℕ} (i j : Fin (n + 1)) :
    (Fin (n + 1) → ℝ) ≃ᵐ (Fin (n + 1) → ℝ) where
  toEquiv :=
    { toFun := swapFun i j
      invFun := swapFun i j
      left_inv := swapFun_invol i j
      right_inv := swapFun_invol i j }
  measurable_toFun := measurable_swapFun i j
  measurable_invFun := measurable_swapFun i j

theorem swapEquiv_coe {n : ℕ} (i j : Fin (n + 1)) :
    (swapEquiv i j : (Fin (n + 1) → ℝ) → (Fin (n + 1) → ℝ)) = swapFun i j := rfl

theorem map_swapEquiv {n : ℕ} (i j : Fin (n + 1)) :
    Measure.map (swapEquiv i j) (jitterMeasure n) = jitterMeasure n := by
  refine (Measure.pi_eq fun s hs => ?_).symm
  rw [swapEquiv_coe,
    Measure.map_apply (measurable_swapFun i j) (MeasurableSet.univ_pi hs)]
  have hpre : Set.preimage (swapFun i j) (Set.pi Set.univ s) =
      Set.pi Set.univ (fun m => s (Equiv.swap i j m)) := by
    ext u
    simp only [Set.mem_preimage, Set.mem_univ_pi, swapFun]
    constructor
    · intro h m
      have := h (Equiv.swap i j m)
      simpa [Equiv.swap_apply_self] using this
    · intro h k
      have := h (Equiv.swap i j k)
      simpa [Equiv.swap_apply_self] using this
  rw [hpre, jitterMeasure, Measure.pi_pi]
  exact Equiv.prod_comp (Equiv.swap i j) fun k => unif (s k)

theorem integral_comp_swap {n : ℕ} (i j : Fin (n + 1))
    (f : (Fin (n + 1) → ℝ) → ℝ) :
    ∫ u, f (swapFun i j u) ∂(jitterMeasure n) = ∫ u, f u ∂(jitterMeasure n) := by
  conv_rhs => rw [← map_swapEquiv i j]
  exact (MeasureTheory.integral_map_equiv (swapEquiv i j) f).symm

end Selection

namespace Selection

open MeasureTheory

/-- Conditional draw probability in its reduced form, valid on the jitter
box: jittered weight over total jittered weight. -/
noncomputable def redProb {n : ℕ} (l : Fin (n + 1) → ℝ) (k : Fin (n + 1))
    (u : Fin (n + 1) → ℝ) : ℝ :=
  jitteredWeight l u k / ∑ m, jitteredWeight l u m

theorem measurable_jitteredWeight {n : ℕ} (l : Fin (n + 1) → ℝ) (k : Fin (n + 1)) :
    Measurable fun u : Fin (n + 1) → ℝ => jitteredWeight l u k :=
  measurable_const.add (measurable_pi_apply k)

theorem measurable_sum_jitteredWeight {n : ℕ} (l : Fin (n + 1) → ℝ) :
    Measurable fun u : Fin (n + 1) → ℝ => ∑ m, jitteredWeight l u m :=
  Finset.measurable_sum _ fun m _ => measurable_jitteredWeight l m

theorem measurable_redProb {n : ℕ} (l : Fin (n + 1) → ℝ) (k : Fin (n + 1)) :
    Measurable (redProb l k) :=
  (measurable_jitteredWeight l k).div (measurable_sum_jitteredWeight l)

theorem measurable_drawProb {n : ℕ} (l : Fin (n + 1) → ℝ) (k : Fin (n + 1)) :
    Measurable fun u => drawProb l u k := by
  have hnw : ∀ m, Measurable fun u => normWeight l u m := fun m =>
    (measurable_jitteredWeight l m).div (measurable_sum_jitteredWeight l)
  exact (hnw k).div (Finset.measurable_sum _ fun m _ => hnw m)

theorem ae_mem_box (n : ℕ) : ∀ᵐ u ∂(jitterMeasure n), u ∈ box n := by
  have hb : MeasurableSet (box n) :=
    MeasurableSet.univ_pi fun _ => measurableSet_Icc
  have h1 : jitterMeasure n (box n) = 1 := by
    rw [box, jitterMeasure, Measure.pi_pi]
    simp [unif_Icc]
  have h0 : jitterMeasure n (box n)ᶜ = 0 :=
    (prob_compl_eq_zero_iff hb).mpr h1
  rw [MeasureTheory.ae_iff]
  exact h0

theorem integrable_of_box_bound {n : ℕ} (f : (Fin (n + 1) → ℝ) → ℝ)
    (hf : Measurable f) (C : ℝ) (hC : ∀ u ∈ box n, |f u| ≤ C) :
    Integrable f (jitterMeasure n) := by
  refine (integrable_const C).mono' hf.aestronglyMeasurable ?_
  refine (ae_mem_box n).mono fun u hu => ?_
  simpa [Real.norm_eq_abs] using hC u hu

theorem redProb_abs_le {n : ℕ} (l : Fin (n + 1) → ℝ) (hl : ∀ k, 0 ≤ l k)
    (k : Fin (n + 1)) (u : Fin (n + 1) → ℝ) (hu : u ∈ box n) :
    |redProb l k u| ≤ (weight l k + 0.2) / ∑ m, weight l m := by
  have hS := sum_jitteredWeight_pos l u hl hu
  have hW := sum_weight_pos l hl
  have hWS : ∑ m, weight l m ≤ ∑ m, jitteredWeight l u m := by
    rw [sum_jitteredWeight]
    have : 0 ≤ ∑ m, u m :=
      Finset.sum_nonneg fun m _ => ((mem_box_iff u).mp hu m).1
    linarith
  have hk := (mem_box_iff u).mp hu k
  have hwk := weight_pos l hl k
  have hnum : 0 ≤ jitteredWeight l u k := by
    unfold jitteredWeight
    linarith [hk.1]
  unfold redProb
  rw [abs_of_nonneg (div_nonneg hnum (le_of_lt hS))]
  apply div_le_div₀ (by linarith) ?_ hW hWS
  unfold jitteredWeight
  linarith [hk.2]

theorem integrable_redProb {n : ℕ} (l : Fin (n + 1) → ℝ) (hl : ∀ k, 0 ≤ l k)
    (k : Fin (n + 1)) : Integrable (redProb l k) (jitterMeasure n) :=
  integrable_of_box_bound _ (measurable_redProb l k) _
    (fun u hu => redProb_abs_le l hl k u hu)

theorem swapFun_mem_box {n : ℕ} (i j : Fin (n + 1)) (u : Fin (n + 1) → ℝ)
    (hu : u ∈ box n) : swapFun i j u ∈ box n := by
  rw [mem_box_iff] at hu ⊢
  intro k
  exact hu (Equiv.swap i j k)

theorem integrable_redProb_swap {n : ℕ} (l : Fin (n + 1) → ℝ) (hl : ∀ k, 0 ≤ l k)
    (k i j : Fin (n + 1)) :
    Integrable (fun u => redProb l k (swapFun i j u)) (jitterMeasure n) :=
  integrable_of_box_bound _ ((measurable_redProb l k).comp (measurable_swapFun i j)) _
    (fun u hu => redProb_abs_le l hl k _ (swapFun_mem_box i j u hu))

theorem sum_jitteredWeight_swap {n : ℕ} (l : Fin (n + 1) → ℝ) (i j : Fin (n + 1))
    (u : Fin (n + 1) → ℝ) :
    ∑ m, jitteredWeight l (swapFun i j u) m = ∑ m, jitteredWeight l u m := by
  rw [sum_jitteredWeight, sum_jitteredWeight]
  congr 1
  exact Equiv.sum_comp (Equiv.swap i j) u

theorem redProb_swap_left {n : ℕ} (l : Fin (n + 1) → ℝ) (i j : Fin (n + 1))
    (u : Fin (n + 1) → ℝ) :
    redProb l i (swapFun i j u) = (weight l i + u j) / ∑ m, jitteredWeight l u m := by
  unfold redProb
  rw [sum_jitteredWeight_swap]
  congr 1
  simp [jitteredWeight, swapFun, Equiv.swap_apply_left]

theorem redProb_swap_right {n : ℕ} (l : Fin (n + 1) → ℝ) (i j : Fin (n + 1))
    (u : Fin (n + 1) → ℝ) :
    redProb l j (swapFun i j u) = (weight l j + u i) / ∑ m, jitteredWeight l u m := by
  unfold redProb
  rw [sum_jitteredWeight_swap]
  congr 1
  simp [jitteredWeight, swapFun, Equiv.swap_apply_right]

end Selection

namespace Selection

open MeasureTheory

theorem integral_const_real {n : ℕ} (c : ℝ) :
    ∫ _u, c ∂(jitterMeasure n) = c := by
  rw [integral_const, measure_univ]
  simp

/-- Strict monotonicity of the selection probability: among the reliable
candidates handed to strategy 1, a strictly smaller latency estimate gives
a strictly larger probability of being drawn. -/
theorem selProb_lt_selProb {n : ℕ} (l : Fin (n + 1) → ℝ) (i j : Fin (n + 1))
    (hl : ∀ k, 0 ≤ l k) (hij : l i < l j) : selProb l j < selProb l i := by
  have hW := sum_weight_pos l hl
  have hwij := weight_lt_weight l hl hij
  have hD : (0:ℝ) < (∑ m, weight l m) + (n + 1) * 0.2 := by
    have : (0:ℝ) ≤ (n + 1) * 0.2 := by positivity
    linarith
  set ε : ℝ := (weight l i - weight l j) / ((∑ m, weight l m) + (n + 1) * 0.2)
    with hε_def
  have hε : 0 < ε := div_pos (by linarith) hD
  have hsel : ∀ k, selProb l k = ∫ u, redProb l k u ∂(jitterMeasure n) := by
    intro k
    apply integral_congr_ae
    exact (ae_mem_box n).mono fun u hu => drawProb_eq_of_mem_box l u hl hu k
  have hIi := integrable_redProb l hl i
  have hIj := integrable_redProb l hl j
  have hIsi := integrable_redProb_swap l hl i i j
  have hIsj := integrable_redProb_swap l hl j i j
  have hswap_i : ∫ u, redProb l i (swapFun i j u) ∂(jitterMeasure n) =
      ∫ u, redProb l i u ∂(jitterMeasure n) := integral_comp_swap i j _
  have hswap_j : ∫ u, redProb l j (swapFun i j u) ∂(jitterMeasure n) =
      ∫ u, redProb l j u ∂(jitterMeasure n) := integral_comp_swap i j _
  have hIadd_i : Integrable (fun u => redProb l i u + redProb l i (swapFun i j u))
      (jitterMeasure n) := hIi.add hIsi
  have hIadd_j : Integrable (fun u => redProb l j u + redProb l j (swapFun i j u))
      (jitterMeasure n) := hIj.add hIsj
  have e1 : ∫ u, (redProb l i u + redProb l i (swapFun i j u)
        - (redProb l j u + redProb l j (swapFun i j u))) ∂(jitterMeasure n)
      = (∫ u, (redProb l i u + redProb l i (swapFun i j u)) ∂(jitterMeasure n))
      - ∫ u, (redProb l j u + redProb l j (swapFun i j u)) ∂(jitterMeasure n) :=
    integral_sub hIadd_i hIadd_j
  have e2 : ∫ u, (redProb l i u + redProb l i (swapFun i j u)) ∂(jitterMeasure n)
      = (∫ u, redProb l i u ∂(jitterMeasure n))
      + ∫ u, redProb l i (swapFun i j u) ∂(jitterMeasure n) :=
    integral_add hIi hIsi
  have e3 : ∫ u, (redProb l j u + redProb l j (swapFun i j u)) ∂(jitterMeasure n)
      = (∫ u, redProb l j u ∂(jitterMeasure n))
      + ∫ u, redProb l j (swapFun i j u) ∂(jitterMeasure n) :=
    integral_add hIj hIsj
  have key : ∫ u, (redProb l i u + redProb l i (swapFun i j u)
        - (redProb l j u + redProb l j (swapFun i j u))) ∂(jitterMeasure n)
      = 2 * (selProb l i - selProb l j) := by
    rw [e1, e2, e3, hswap_i, hswap_j, hsel i, hsel j]
    ring
  have hlow : ∀ᵐ u ∂(jitterMeasure n), 2 * ε ≤ redProb l i u
      + redProb l i (swapFun i j u)
      - (redProb l j u + redProb l j (swapFun i j u)) := by
    refine (ae_mem_box n).mono fun u hu => ?_
    have hS := sum_jitteredWeight_pos l u hl hu
    have hSle := sum_jitteredWeight_le l u hu
    have hcomb : redProb l i u + redProb l i (swapFun i j u)
        - (redProb l j u + redProb l j (swapFun i j u))
        = 2 * (weight l i - weight l j) / ∑ m, jitteredWeight l u m := by
      rw [redProb_swap_left, redProb_swap_right]
      unfold redProb jitteredWeight
      rw [div_add_div_same, div_add_div_same, ← sub_div]
      congr 1
      ring
    rw [hcomb]
    have h2 : 2 * ε ≤ 2 * (weight l i - weight l j)
        / ((∑ m, weight l m) + (n + 1) * 0.2) := by
      rw [hε_def]
      rw [mul_div_assoc]
    have h3 : 2 * (weight l i - weight l j) / ((∑ m, weight l m) + (n + 1) * 0.2)
        ≤ 2 * (weight l i - weight l j) / ∑ m, jitteredWeight l u m := by
      apply div_le_div_of_nonneg_left (by linarith) hS hSle
    linarith
  have hmono : ∫ _u, (2 * ε : ℝ) ∂(jitterMeasure n)
      ≤ ∫ u, (redProb l i u + redProb l i (swapFun i j u)
        - (redProb l j u + redProb l j (swapFun i j u))) ∂(jitterMeasure n) :=
    integral_mono_ae (integrable_const _) ((hIi.add hIsi).sub (hIj.add hIsj)) hlow
  rw [integral_const_real, key] at hmono
  linarith

end Selection

theorem head_mergeSort_forall {α : Type} (le : α → α → Bool)
    (htrans : ∀ a b c, le a b → le b c → le a c)
    (htot : ∀ a b, le a b || le b a)
    (l : List α) (p : α) (hp : (l.mergeSort le).head? = some p) :
    p ∈ l ∧ ∀ q ∈ l, le p q = true := by
  have hsorted := List.sorted_mergeSort htrans htot l
  have hperm := List.mergeSort_perm l le
  cases hms : l.mergeSort le with
  | nil =>
    rw [hms] at hp
    simp at hp
  | cons a tail =>
    rw [hms] at hp
    simp only [List.head?_cons, Option.some.injEq] at hp
    subst hp
    rw [hms] at hsorted hperm
    rw [List.pairwise_cons] at hsorted
    refine ⟨hperm.mem_iff.mp (List.mem_cons_self _ _), fun q hq => ?_⟩
    rcases List.mem_cons.mp (hperm.mem_iff.mpr hq) with hqa | hqt
    · subst hqa
      have := htot q q
      simpa using this
    · exact hsorted.1 q hqt

theorem lastUsedLe_trans : ∀ a b c : Proxy,
    decide (a.last_used ≤ b.last_used) → decide (b.last_used ≤ c.last_used) →
    decide (a.last_used ≤ c.last_used) := by
  intro a b c hab hbc
  simp only [decide_eq_true_eq] at *
  exact le_trans hab hbc

theorem lastUsedLe_total : ∀ a b : Proxy,
    decide (a.last_used ≤ b.last_used) || decide (b.last_used ≤ a.last_used) := by
  intro a b
  simp only [Bool.or_eq_true, decide_eq_true_eq]
  exact le_total _ _

theorem sortByLastUsed_perm (l : List Proxy) : (sortByLastUsed l).Perm l :=
  List.mergeSort_perm l _

theorem sortByLastUsed_idem (l : List Proxy) :
    sortByLastUsed (sortByLastUsed l) = sortByLastUsed l :=
  List.mergeSort_of_sorted (List.sorted_mergeSort lastUsedLe_trans lastUsedLe_total l)

theorem sortByLastUsed_sorted (l : List Proxy) :
    (sortByLastUsed l).Pairwise (fun a b => a.last_used ≤ b.last_used) := by
  have h := List.sorted_mergeSort lastUsedLe_trans lastUsedLe_total l
  exact h.imp (by simp only [decide_eq_true_eq]; exact fun h => h)

theorem head_sortByLastUsed (l : List Proxy) (p : Proxy)
    (hp : (sortByLastUsed l).head? = some p) :
    p ∈ l ∧ ∀ q ∈ l, p.last_used ≤ q.last_used := by
  have h := head_mergeSort_forall _ lastUsedLe_trans lastUsedLe_total l p hp
  exact ⟨h.1, fun q hq => by simpa using h.2 q hq⟩

theorem countryKeyGe_trans : ∀ a b c : Proxy,
    decide (b.success_rate < a.success_rate ∨
      (b.success_rate = a.success_rate ∧ -b.last_used ≤ -a.last_used)) →
    decide (c.success_rate < b.success_rate ∨
      (c.success_rate = b.success_rate ∧ -c.last_used ≤ -b.last_used)) →
    decide (c.success_rate < a.success_rate ∨
      (c.success_rate = a.success_rate ∧ -c.last_used ≤ -a.last_used)) := by
  intro a b c hab hbc
  simp only [decide_eq_true_eq] at *
  rcases hab with h1 | ⟨h1, h1'⟩ <;> rcases hbc with h2 | ⟨h2, h2'⟩
  · exact Or.inl (lt_trans h2 h1)
  · exact Or.inl (h2 ▸ h1)
  · exact Or.inl (h1 ▸ h2)
  · exact Or.inr ⟨h2.trans h1, le_trans h2' h1'⟩

theorem countryKeyGe_total : ∀ a b : Proxy,
    decide (b.success_rate < a.success_rate ∨
      (b.success_rate = a.success_rate ∧ -b.last_used ≤ -a.last_used)) ||
    decide (a.success_rate < b.success_rate ∨
      (a.success_rate = b.success_rate ∧ -a.last_used ≤ -b.last_used)) := by
  intro a b
  simp only [Bool.or_eq_true, decide_eq_true_eq]
  rcases lt_trichotomy a.success_rate b.success_rate with h | h | h
  · exact Or.inr (Or.inl h)
  · rcases le_total (-b.last_used) (-a.last_used) with h' | h'
    · exact Or.inl (Or.inr ⟨h.symm, h'⟩)
    · exact Or.inr (Or.inr ⟨h, h'⟩)
  · exact Or.inl (Or.inl h)

theorem head_sortByCountryKeyDesc (l : List Proxy) (p : Proxy)
    (hp : (sortByCountryKeyDesc l).head? = some p) :
    p ∈ l ∧ ∀ q ∈ l, q.success_rate < p.success_rate ∨
      (q.success_rate = p.success_rate ∧ -q.last_used ≤ -p.last_used) := by
  have h := head_mergeSort_forall _ countryKeyGe_trans countryKeyGe_total l p hp
  exact ⟨h.1, fun q hq => by simpa using h.2 q hq⟩

/-- Probe behaviour in which the main request times out. -/
def bTimeout : ProbeBehavior := { mainRequest := RequestResult.timeout }

/-- Probe behaviour: HTTP 200 whose body raises during JSON inspection. -/
def bOk200 : ProbeBehavior :=
  { mainRequest := RequestResult.response 200 BodyResult.raises, elapsed := 1 }

/-- Probe behaviour: HTTP 204 (a 2xx status) with a well-formed probe body. -/
def b204 : ProbeBehavior :=
  { mainRequest := RequestResult.response 204 (BodyResult.evaluates true), elapsed := 1 }

/-- A plain HTTP proxy with default (fresh) statistics. -/
def pHTTP : Proxy := { host := "proxy1", port := 8080 }

/-- Claim C3: `update_stats` blends the reliability score as
`new = 0.7*old + 0.3*(1.0 on success, 0.0 on failure)`, blends the latency
estimate as `new = 0.7*old + 0.3*observed` when a prior estimate exists and
sets it directly otherwise, and after a success with latency `t` followed by
a failure with no latency the failure count is `1` and the score is `0.7`
times the score held just before the failure call. -/
theorem claim_C3_update_stats_blend (p : Proxy) (success : Bool) (rt : Option ℚ)
    (t now n1 n2 : ℚ) :
    ((p.update_stats success rt now).success_rate
        = 0.7 * p.success_rate + 0.3 * (if success then 1.0 else 0.0)) ∧
    ((p.update_stats success rt now).failed_attempts
        = if success then 0 else p.failed_attempts + 1) ∧
    (rt = none → (p.update_stats success rt now).response_time = p.response_time) ∧
    (∀ t0, rt = some t0 → p.response_time = none →
      (p.update_stats success rt now).response_time = some t0) ∧
    (∀ t0 old, rt = some t0 → p.response_time = some old →
      (p.update_stats success rt now).response_time = some (0.7 * old + 0.3 * t0)) ∧
    ((p.update_stats true (some t) n1).update_stats false none n2).failed_attempts = 1 ∧
    ((p.update_stats true (some t) n1).update_stats false none n2).success_rate
        = 0.7 * (p.update_stats true (some t) n1).success_rate := by
  refine ⟨?_, ?_, ?_, ?_, ?_, ?_, ?_⟩
  · cases success <;> cases rt <;> cases hrt : p.response_time <;>
      simp [Proxy.update_stats, hrt]
  · cases success <;> cases rt <;> cases hrt : p.response_time <;>
      simp [Proxy.update_stats, hrt]
  · intro h
    subst h
    cases success <;> simp [Proxy.update_stats]
  · intro t0 h hrt
    subst h
    cases success <;> simp [Proxy.update_stats, hrt]
  · intro t0 old h hrt
    subst h
    cases success <;> simp [Proxy.update_stats, hrt]
  · cases hrt : p.response_time <;> simp [Proxy.update_stats, hrt]
  · cases hrt : p.response_time <;> simp [Proxy.update_stats, hrt] <;>
      norm_num

/-- Witness for claim C3 at a concrete endpoint: the latency-blend clauses
evaluated on a proxy carrying a prior estimate. -/
theorem claim_C3_witness :
    (Proxy.update_stats { pHTTP with response_time := some 2 } true (some 4)
      9).response_time = some (0.7 * 2 + 0.3 * 4) :=
  (claim_C3_update_stats_blend { pHTTP with response_time := some 2 } true (some 4)
    0 9 0 0).2.2.2.2.1 4 2 rfl rfl

/-- Claim C4: `is_reliable` is true exactly when the score is at least `0.7`
or exactly `0.0` and there are fewer than `3` consecutive failures; a fresh
endpoint (score `0`, failures `0`) is reliable, and any three consecutive
failed `update_stats` calls make an endpoint unreliable regardless of
score. -/
theorem claim_C4_is_reliable :
    (∀ p : Proxy, p.is_reliable = true ↔
      ((0.7 ≤ p.success_rate ∨ p.success_rate = 0) ∧ p.failed_attempts < 3)) ∧
    (∀ host port username password ptype country lu rt,
      (Proxy.mk host port username password ptype country lu rt 0 0).is_reliable
        = true) ∧
    (∀ (p : Proxy) (r1 r2 r3 : Option ℚ) (n1 n2 n3 : ℚ),
      (((p.update_stats false r1 n1).update_stats false r2 n2).update_stats
          false r3 n3).is_reliable = false) := by
  refine ⟨?_, ?_, ?_⟩
  · intro p
    simp only [Proxy.is_reliable, ge_iff_le, Bool.and_eq_true, Bool.or_eq_true,
      decide_eq_true_eq]
    norm_num
  · intro host port username password ptype country lu rt
    simp [Proxy.is_reliable]
    norm_num
  · intro p r1 r2 r3 n1 n2 n3
    have h3 : (((p.update_stats false r1 n1).update_stats false r2 n2).update_stats
        false r3 n3).failed_attempts = p.failed_attempts + 3 := by
      cases hr1 : r1 <;> cases hr2 : r2 <;> cases hr3 : r3 <;>
        cases hp : p.response_time <;>
        simp [Proxy.update_stats, hp]
    simp [Proxy.is_reliable, h3]

/-- Witness for claim C4: a fresh endpoint is reliable and three failures
make it unreliable. -/
theorem claim_C4_witness :
    (pHTTP.is_reliable = true ∧ (((pHTTP.update_stats false none 1).update_stats
        false none 2).update_stats false none 3).is_reliable = false) :=
  ⟨claim_C4_is_reliable.2.1 "proxy1" 8080 none none ProxyType.HTTP none 0 none,
    claim_C4_is_reliable.2.2 pHTTP none none none 1 2 3⟩

/-- A one-endpoint pool whose endpoint has no latency estimate. -/
def rNoLatency : ProxyRotator := { proxies := [pHTTP] }

/-- Claim C10: `get_stats` never divides by zero: on an empty pool every
aggregate is zero and the country distribution is empty, and when no
endpoint carries a latency estimate the mean latency is reported as `0`. -/
theorem claim_C10_stats_safe (r : ProxyRotator) (url : String) (tm mp : ℕ) :
    (ProxyRotator.mk [] url tm mp).get_stats
        = { total := 0, reliable := 0, unreliable := 0, avg_response_time := 0,
            avg_success_rate := 0, country_distribution := [] } ∧
    ((∀ p ∈ r.proxies, p.response_time = none) →
      r.get_stats.avg_response_time = 0) := by
  constructor
  · rfl
  · intro h
    have : r.proxies.filterMap (fun p => p.response_time) = [] :=
      List.filterMap_eq_nil_iff.mpr h
    simp [ProxyRotator.get_stats, this]

/-- Witness for claim C10: a pool whose single endpoint has no latency
estimate reports mean latency `0`. -/
theorem claim_C10_witness : rNoLatency.get_stats.avg_response_time = 0 :=
  (claim_C10_stats_safe rNoLatency "u" 1 1).2 (by simp [rNoLatency, pHTTP])

/-- Claim C2: `get_next_proxy` on an empty pool returns `none`; on a pool
with no reliable endpoint it returns an endpoint with minimal `last_used`,
and a repeated call (no `update_stats` in between) returns the same
endpoint — the state reached after the first call is moreover a fixed
point, so every later call keeps returning it. -/
theorem claim_C2_lru_fallback (r : ProxyRotator) (jit1 jit2 : ℕ → ℚ)
    (ch1 ch2 : List ℚ → ℕ) :
    (r.proxies = [] → (r.get_next_proxy jit1 ch1).1 = none) ∧
    (r.proxies ≠ [] → (∀ p ∈ r.proxies, p.is_reliable = false) →
      ∃ p, (r.get_next_proxy jit1 ch1).1 = some p ∧ p ∈ r.proxies ∧
        (∀ q ∈ r.proxies, p.last_used ≤ q.last_used) ∧
        (((r.get_next_proxy jit1 ch1).2).get_next_proxy jit2 ch2).1 = some p ∧
        (((r.get_next_proxy jit1 ch1).2).get_next_proxy jit2 ch2).2
          = (r.get_next_proxy jit1 ch1).2) := by
  constructor
  · intro h
    simp [ProxyRotator.get_next_proxy, h]
  · intro hne hrel
    have hfilter : r.proxies.filter (fun p => p.is_reliable) = [] := by
      rw [List.filter_eq_nil_iff]
      intro a ha
      simp [hrel a ha]
    have hsorted_ne : sortByLastUsed r.proxies ≠ [] := by
      intro h0
      exact hne (List.Perm.eq_nil (h0 ▸ (sortByLastUsed_perm r.proxies).symm))
    obtain ⟨p, hp⟩ : ∃ p, (sortByLastUsed r.proxies).head? = some p := by
      cases hs : sortByLastUsed r.proxies with
      | nil => exact absurd hs hsorted_ne
      | cons a t => exact ⟨a, rfl⟩
    have hmin := head_sortByLastUsed r.proxies p hp
    have hstate : (r.get_next_proxy jit1 ch1).2
        = { r with proxies := sortByLastUsed r.proxies } := by
      simp [ProxyRotator.get_next_proxy, hne, hfilter]
    have hrel2 : ∀ q ∈ sortByLastUsed r.proxies, q.is_reliable = false :=
      fun q hq => hrel q ((sortByLastUsed_perm r.proxies).mem_iff.mp hq)
    have hfilter2 : (sortByLastUsed r.proxies).filter (fun p => p.is_reliable)
        = [] := by
      rw [List.filter_eq_nil_iff]
      intro a ha
      simp [hrel2 a ha]
    refine ⟨p, ?_, hmin.1, hmin.2, ?_, ?_⟩
    · simp [ProxyRotator.get_next_proxy, hne, hfilter, hp]
    · rw [hstate]
      simp [ProxyRotator.get_next_proxy, hsorted_ne, hfilter2,
        sortByLastUsed_idem, hp]
    · rw [hstate]
      simp [ProxyRotator.get_next_proxy, hsorted_ne, hfilter2,
        sortByLastUsed_idem]

/-- Claim C9: the only state effect of `get_next_proxy` is the in-place
ascending sort of the pool by `last_used` in the branch where the pool is
non-empty and holds no reliable endpoint; in every other branch the state
is untouched, and the sort itself is a permutation (no endpoint is added,
removed, or has its statistics changed). -/
theorem claim_C9_frame (r : ProxyRotator) (jitter : ℕ → ℚ)
    (choose : List ℚ → ℕ) :
    ((r.get_next_proxy jitter choose).2 =
      if r.proxies ≠ [] ∧ r.proxies.filter (fun p => p.is_reliable) = []
      then { r with proxies := sortByLastUsed r.proxies } else r) ∧
    (sortByLastUsed r.proxies).Perm r.proxies ∧
    (sortByLastUsed r.proxies).Pairwise
      (fun a b => a.last_used ≤ b.last_used) := by
  refine ⟨?_, sortByLastUsed_perm r.proxies, sortByLastUsed_sorted r.proxies⟩
  by_cases h1 : r.proxies = []
  · simp [ProxyRotator.get_next_proxy, h1]
  · by_cases h2 : r.proxies.filter (fun p => p.is_reliable) = []
    · simp [ProxyRotator.get_next_proxy, h1, h2]
    · by_cases h3 : (r.proxies.filter fun p => p.is_reliable).all
          (fun p => p.response_time.isSome)
      · simp [ProxyRotator.get_next_proxy, h1, h2, h3]
      · simp [ProxyRotator.get_next_proxy, h1, h2, h3]

/-- An unreliable proxy (three consecutive failures) last used at time 5. -/
def pSlowC2 : Proxy := { host := "a", port := 1, last_used := 5, failed_attempts := 3 }

/-- An unreliable proxy (three consecutive failures) last used at time 2. -/
def pFastC2 : Proxy := { host := "b", port := 2, last_used := 2, failed_attempts := 3 }

/-- A pool holding only unreliable proxies. -/
def rC2 : ProxyRotator := { proxies := [pSlowC2, pFastC2] }

/-- Witness for claim C2: on a concrete all-unreliable pool the selected
endpoint has minimal `last_used` and the repeated call returns it again. -/
theorem claim_C2_witness :
    ∃ p, (rC2.get_next_proxy (fun _ => 0) (fun _ => 0)).1 = some p ∧
      p ∈ rC2.proxies ∧ (∀ q ∈ rC2.proxies, p.last_used ≤ q.last_used) ∧
      (((rC2.get_next_proxy (fun _ => 0) (fun _ => 0))).2.get_next_proxy
        (fun _ => 0) (fun _ => 0)).1 = some p ∧
      (((rC2.get_next_proxy (fun _ => 0) (fun _ => 0))).2.get_next_proxy
        (fun _ => 0) (fun _ => 0)).2
        = (rC2.get_next_proxy (fun _ => 0) (fun _ => 0)).2 :=
  (claim_C2_lru_fallback rC2 (fun _ => 0) (fun _ => 0) (fun _ => 0) (fun _ => 0)).2
    (by with_unfolding_all decide) (by with_unfolding_all decide)

/-- Counterexample to claim C5 as stated: HTTP status 204 lies in the 2xx
range yet the probe reports failure, because the source tests
`response.status_code == 200`, not the whole 2xx range. -/
theorem claim_C5_counterexample :
    ProxyRotator.test_proxy pHTTP b204 = (false, none) ∧ 200 ≤ 204 ∧ 204 < 300 := by
  with_unfolding_all decide

/-- Claim C5 as amended: when the probe reaches a response (for TOR proxies
this needs the pre-check to see a refused connection), it reports success
with the elapsed time exactly when the status equals 200 and the body does
not evaluate to a JSON object lacking both IP fields; every other response
yields `(false, none)`. -/
theorem claim_C5_success_criterion (proxy : Proxy) (b : ProbeBehavior)
    (status : ℕ) (body : BodyResult)
    (htor : proxy.proxy_type = ProxyType.TOR →
      b.torDirect = TorDirectResult.connectionError)
    (hreq : b.mainRequest = RequestResult.response status body) :
    ProxyRotator.test_proxy proxy b =
      if status = 200 ∧ body ≠ BodyResult.evaluates false
      then (true, some b.elapsed) else (false, none) := by
  have hc : ¬(proxy.proxy_type = ProxyType.TOR ∧
      b.torDirect ≠ TorDirectResult.connectionError) := by
    rintro ⟨h1, h2⟩
    exact h2 (htor h1)
  unfold ProxyRotator.test_proxy
  rw [if_neg hc, hreq]
  by_cases hs : status = 200
  · subst hs
    cases body with
    | raises => simp
    | evaluates hio => cases hio <;> simp
  · simp [hs]

/-- Witness for the amended claim C5: a 200 response whose body raises
during JSON inspection still counts as success. -/
theorem claim_C5_witness :
    ProxyRotator.test_proxy pHTTP bOk200 =
      if 200 = 200 ∧ BodyResult.raises ≠ BodyResult.evaluates false
      then (true, some bOk200.elapsed) else (false, none) :=
  claim_C5_success_criterion pHTTP bOk200 200 BodyResult.raises
    (by decide) rfl

/-- Claim C6: every fault during the probe — a timeout, connection error or
any other exception of the main request, and any non-refusal outcome of the
TOR pre-check — is absorbed and reported as the outcome `(false, none)`;
the embedding is a total function, so no exception escapes. -/
theorem claim_C6_probe_total (proxy : Proxy) (b : ProbeBehavior) :
    (b.mainRequest = RequestResult.timeout ∨
      b.mainRequest = RequestResult.connectionError ∨
      b.mainRequest = RequestResult.otherError →
      ProxyRotator.test_proxy proxy b = (false, none)) ∧
    (proxy.proxy_type = ProxyType.TOR →
      b.torDirect ≠ TorDirectResult.connectionError →
      ProxyRotator.test_proxy proxy b = (false, none)) := by
  constructor
  · intro h
    unfold ProxyRotator.test_proxy
    rcases h with h | h | h <;> rw [h] <;> split <;> rfl
  · intro h1 h2
    unfold ProxyRotator.test_proxy
    rw [if_pos ⟨h1, h2⟩]

/-- Witness for claim C6: a timed-out probe on a concrete proxy yields
`(false, none)`. -/
theorem claim_C6_witness : ProxyRotator.test_proxy pHTTP bTimeout = (false, none) :=
  (claim_C6_probe_total pHTTP bTimeout).1 (Or.inl rfl)

/-- A proxy with identity `h:80` and country `US`. -/
def pUS : Proxy := { host := "h", port := 80, country := some "US" }

/-- A proxy with the same identity `h:80` but country `DE`. -/
def pDE : Proxy := { host := "h", port := 80, country := some "DE" }

/-- A pool containing `pUS`. -/
def rC7 : ProxyRotator := { proxies := [pUS] }

/-- Counterexample to claim C7 as stated: an endpoint duplicating an
existing endpoint's host and port but differing in another field (the
country) is accepted — `add_proxy` returns true and the pool grows —
because the Python membership test uses dataclass equality over all
fields, not host/port identity. -/
theorem claim_C7_counterexample :
    (rC7.add_proxy pDE false bTimeout 0).1 = true ∧
    (rC7.add_proxy pDE false bTimeout 0).2.proxies.length = 2 ∧
    pDE.host = pUS.host ∧ pDE.port = pUS.port := by
  with_unfolding_all decide

/-- Claim C7 as amended: `add_proxy` rejects (returns false with the state
unchanged) exactly the proxies that equal a pool member in every field;
without validation, any other proxy is appended and true is returned. -/
theorem claim_C7_duplicate_check (r : ProxyRotator) (p : Proxy)
    (validate : Bool) (b : ProbeBehavior) (now : ℚ) :
    (p ∈ r.proxies → r.add_proxy p validate b now = (false, r)) ∧
    (p ∉ r.proxies → validate = false →
      r.add_proxy p validate b now
        = (true, { r with proxies := r.proxies ++ [p] })) := by
  constructor
  · intro h
    simp [ProxyRotator.add_proxy, h]
  · intro h hv
    subst hv
    simp [ProxyRotator.add_proxy, h]

/-- Witness for the amended claim C7: re-adding a field-for-field identical
proxy is rejected without mutation. -/
theorem claim_C7_witness : rC7.add_proxy pUS true bTimeout 0 = (false, rC7) :=
  (claim_C7_duplicate_check rC7 pUS true bTimeout 0).1
    (by with_unfolding_all decide)

/-- A fresh (hence reliable) proxy whose stored country code is lowercase. -/
def pLower : Proxy := { host := "h", port := 80, country := some "us" }

/-- A pool containing only `pLower`. -/
def rC8 : ProxyRotator := { proxies := [pLower] }

/-- Counterexample to claim C8 as stated: a reliable endpoint whose stored
country code is lowercase `"us"` is never returned, even for the query
`"us"`, because the source upper-cases only the query and compares for
exact equality. -/
theorem claim_C8_counterexample :
    rC8.get_proxy_by_country "us" = none ∧ pLower.is_reliable = true ∧
    pLower.country = some "us" ∧ rC8.proxies = [pLower] := by
  with_unfolding_all decide

/-- Claim C8 as amended: `get_proxy_by_country` depends on the query only
through its upper-cased form (so queries are case-insensitive), matches
stored codes by exact equality with that upper-cased form (a stored
lowercase code never matches), returns none when no reliable endpoint
matches, and otherwise returns a reliable matching endpoint maximizing
`(success_rate, -last_used)` lexicographically. -/
theorem claim_C8_country_selection (r : ProxyRotator) (code : String) :
    (∀ code2 : String, code2.toUpper = code.toUpper →
      r.get_proxy_by_country code = r.get_proxy_by_country code2) ∧
    (r.proxies.filter
        (fun p => decide (p.country = some code.toUpper) && p.is_reliable) = [] →
      r.get_proxy_by_country code = none) ∧
    (r.proxies.filter
        (fun p => decide (p.country = some code.toUpper) && p.is_reliable) ≠ [] →
      ∃ p, r.get_proxy_by_country code = some p ∧ p ∈ r.proxies ∧
        p.country = some code.toUpper ∧ p.is_reliable = true ∧
        ∀ q ∈ r.proxies, q.country = some code.toUpper → q.is_reliable = true →
          q.success_rate < p.success_rate ∨
            (q.success_rate = p.success_rate ∧ -q.last_used ≤ -p.last_used)) := by
  refine ⟨?_, ?_, ?_⟩
  · intro code2 h
    unfold ProxyRotator.get_proxy_by_country
    rw [h]
  · intro h
    simp [ProxyRotator.get_proxy_by_country, h]
  · intro h
    have hsne : sortByCountryKeyDesc (r.proxies.filter
        (fun p => decide (p.country = some code.toUpper) && p.is_reliable)) ≠ [] := by
      intro h0
      exact h (List.Perm.eq_nil (h0 ▸ (List.mergeSort_perm _ _).symm))
    obtain ⟨p, hp⟩ : ∃ p, (sortByCountryKeyDesc (r.proxies.filter
        (fun p => decide (p.country = some code.toUpper) && p.is_reliable))).head?
          = some p := by
      cases hs : sortByCountryKeyDesc (r.proxies.filter
          (fun p => decide (p.country = some code.toUpper) && p.is_reliable)) with
      | nil => exact absurd hs hsne
      | cons a t => exact ⟨a, rfl⟩
    have hkey := head_sortByCountryKeyDesc _ p hp
    have hpmem := List.mem_filter.mp hkey.1
    have hpprops : p.country = some code.toUpper ∧ p.is_reliable = true := by
      have := hpmem.2
      simp only [Bool.and_eq_true, decide_eq_true_eq] at this
      exact this
    refine ⟨p, ?_, hpmem.1, hpprops.1, hpprops.2, ?_⟩
    · simp [ProxyRotator.get_proxy_by_country, h, hp]
    · intro q hq hqc hqr
      exact hkey.2 q (List.mem_filter.mpr ⟨hq, by simp [hqc, hqr]⟩)

/-- Witness for the amended claim C8: queries `"us"` and `"US"` give the
same answer on a concrete pool. -/
theorem claim_C8_witness :
    rC8.get_proxy_by_country "us" = rC8.get_proxy_by_country "US" :=
  (claim_C8_country_selection rC8 "us").1 "US" (by with_unfolding_all decide)

/-- Claim C1: in the latency-weighted random selection of strategy 1
(weights `(maxTime - latency) / maxTime` with `maxTime` the maximum
latency plus 0.01, independent uniform jitter in `[0, 0.2]` added, weights
normalized and one candidate drawn with probability proportional to its
weight), a reliable candidate with a strictly smaller latency estimate has
a strictly greater overall probability of being selected. -/
theorem claim_C1_latency_weighted_selection (n : ℕ) (l : Fin (n + 1) → ℝ)
    (i j : Fin (n + 1)) (hl : ∀ k, 0 ≤ l k) (hij : l i < l j) :
    Selection.selProb l j < Selection.selProb l i :=
  Selection.selProb_lt_selProb l i j hl hij

/-- The latency profile `[0.1, 0.2, 0.3]` from the specification's example. -/
noncomputable def lC1 : Fin 3 → ℝ :=
  fun k => ((k : ℕ) + 1 : ℝ) / 10

/-- Witness for claim C1: with latencies `[0.1, 0.2, 0.3]`, the fastest
candidate is strictly more likely to be drawn than the slowest. -/
theorem claim_C1_witness : Selection.selProb lC1 2 < Selection.selProb lC1 0 :=
  claim_C1_latency_weighted_selection 2 lC1 0 2
    (fun k => by unfold lC1; positivity) (by norm_num [lC1])
